import Mathlib

/-!
Verification of the Auckland Transport polling client
(`custom_components/auckland_transport`), a Home Assistant integration that
polls scheduled trips and realtime delays for a transit stop and derives a
departure board.

Shallow embedding conventions:
* Python `datetime` instants are `Int` seconds; the coordinator's
  `datetime.now()` is `NowT ⟨day, secs⟩` whose instant is `day * 86400 + secs`
  (`day * 86400` is midnight of the current date, `secs` the time of day).
  `datetime` arithmetic (`+ timedelta`) is exact integer arithmetic, and
  comparison of datetimes is integer comparison, so this is faithful at
  second resolution.
* Python strings are Lean `String`s; the string operations the source uses
  (`str.split`, `":".join`, `int(...)`, `strftime`, containment, `upper`) are
  modelled at the character-list level (`String.data`).
* `dict`s holding JSON are structures with `Option` fields (`none` = key
  absent); the realtime mapping is an association list with dict-style
  insert-or-overwrite.
* Fallible network calls are an explicit `FetchOutcome` oracle argument:
  `ok body` (HTTP 200 with parsed JSON), `httpError s` (non-200 status `s`),
  `exn` (transport error / raised exception).
-/

namespace AT

/-! ## Character-level string primitives (models of Python str operations) -/

/-- Model of Python `str.split(c)` on the character list of a string:
splits at every occurrence of `c`, keeping empty segments, and yields at
least one segment. -/
def splitChar (c : Char) : List Char → List (List Char)
  | [] => [[]]
  | x :: xs =>
    let r := splitChar c xs
    if x = c then [] :: r
    else
      match r with
      | h :: t => (x :: h) :: t
      | [] => [[x]]

/-- Model of Python `c.join(parts)` for a one-character separator. -/
def joinWith (c : Char) : List (List Char) → List Char
  | [] => []
  | [x] => x
  | x :: xs => x ++ c :: joinWith c xs

/-- Model of Python `int(s)` restricted to unsigned decimal digit strings
(the shape all inputs exercised here have): `some` of the value when the
string is nonempty and all digits, else `none` (Python raises `ValueError`,
which every caller in the source catches). -/
def digitsToNat? (l : List Char) : Option Nat :=
  if l ≠ [] ∧ l.all (·.isDigit) then
    some (l.foldl (fun a c => a * 10 + (c.toNat - 48)) 0)
  else none

/-- Two-digit zero-padded decimal rendering of `n < 100`, as `strftime`'s
`%H` / `%M` / `%S` produce. -/
def pad2 (n : Nat) : List Char :=
  [Char.ofNat (48 + n / 10), Char.ofNat (48 + n % 10)]

/-- Model of `datetime.strftime("%H:%M:%S")`: the time of day of the
instant, formatted `HH:MM:SS`. -/
def fmtHMS (inst : Int) : String :=
  let tod : Nat := (inst % 86400).toNat
  String.mk (pad2 (tod / 3600) ++ ':' :: pad2 (tod % 3600 / 60) ++ ':' :: pad2 (tod % 60))

/-- Model of `hour, minute, second = map(int, s.split(':'))` in
`_process_trips_with_delay` (sensor.py line 344): succeeds exactly when the
string has three colon-separated all-digit fields. -/
def parseHMS (s : String) : Option (Nat × Nat × Nat) :=
  match (splitChar ':' s.data).map digitsToNat? with
  | [some h, some m, some sec] => some (h, m, sec)
  | _ => none

/-! ## Data model -/

/-- The coordinator's `datetime.now()`: `day` indexes the current date
(midnight of that date is instant `day * 86400`), `secs` is the time of day
in seconds. -/
structure NowT where
  day : Int
  secs : Nat
deriving DecidableEq

/-- The instant of `datetime.now()` in epoch seconds. -/
def NowT.instant (n : NowT) : Int := n.day * 86400 + (n.secs : Int)

/-- A trip record dict as built by `_extract_trips` and later mutated by
the realtime update and `_process_trips_with_delay` (sensor.py lines
266-273, 239, 373-379). `none` = key absent (or JSON null). -/
structure TripRec where
  arrival_time : Option String
  scheduled_departure_time : Option String
  trip_headsign : Option String
  stop_headsign : Option String
  route_id : Option String
  trip_id : Option String
  license_plate : Option String := none
  delay_seconds : Option Int := none
  actual_departure_time : Option String := none
  actual_departure_datetime : Option Int := none
deriving DecidableEq

/-- The dict `{"arrivals": ..., "next_departure": ...}` returned by
`_process_trips_with_delay` and held as the coordinator's data. -/
structure Board where
  arrivals : List TripRec
  next_departure : Option TripRec
deriving DecidableEq

/-- `{"arrivals": [], "next_departure": None}` (sensor.py lines 112, 251, 254). -/
def emptyBoard : Board := { arrivals := [], next_departure := none }

/-! ## Quiet-hours gate -/

/-- `_is_update_disabled` (sensor.py lines 163-188), with the parsed window
bounds and `datetime.now().time()` as seconds-of-day. Python `time` objects
compare chronologically, which is `Nat` comparison here. -/
def is_update_disabled (s e now : Nat) : Bool :=
  if s > e then decide (now ≥ s) || decide (now < e)
  else decide (s ≤ now) && decide (now < e)

/-- The quiet predicate as the spec words it (section 4.5): if
`start <= end`, Quiet holds for `start <= now < end`; if `start > end`,
Quiet holds for `now >= start OR now < end`. Stated independently of the
source to compare the two. -/
def quietSpec (s e now : Nat) : Prop :=
  if s ≤ e then s ≤ now ∧ now < e else s ≤ now ∨ now < e

/-! ## Departure reconciliation -/

/-- The delay actually applied: `trip.get("delay_seconds", 0) or 0`
(sensor.py line 360) — absent or `None` (and `0` itself) become `0`. -/
def delayOf (t : TripRec) : Int := t.delay_seconds.getD 0

/-- Processing of a single trip inside the loop of
`_process_trips_with_delay` (sensor.py lines 336-385): `none` means the
loop `continue`s (missing/empty/unparseable time, out-of-range minute or
second making the `datetime` constructor raise, or the already-departed
check), `some t'` is the mutated record appended to `arrivals`. -/
def processTrip (now : NowT) (t : TripRec) : Option TripRec :=
  match t.scheduled_departure_time with
  | none => none
  | some raw =>
    if raw = "" then none
    else
      match parseHMS raw with
      | none => none
      | some (h, m, s) =>
        if 60 ≤ m ∨ 60 ≤ s then none
        else
          let daysToAdd : Nat := h / 24
          let schedDt : Int :=
            now.day * 86400 + (daysToAdd : Int) * 86400 + ((h % 24 * 3600 + m * 60 + s : Nat) : Int)
          let actualDt : Int := schedDt + delayOf t
          if actualDt < now.instant ∧ daysToAdd = 0 then none
          else
            some { t with
              scheduled_departure_time := some (fmtHMS schedDt)
              actual_departure_time := some (fmtHMS actualDt)
              actual_departure_datetime := some actualDt }

/-- The scheduled instant the source computes for a parsed `(h, m, s)`
(sensor.py lines 346-357): hour reduced modulo 24, the excess full days
added to the current date — the resolved scheduled datetime. -/
def schedInstant (now : NowT) (h m s : Nat) : Int :=
  now.day * 86400 + ((h / 24 : Nat) : Int) * 86400 + ((h % 24 * 3600 + m * 60 + s : Nat) : Int)

/-- Sort key: `x.get("actual_departure_datetime", datetime.max)`
(sensor.py line 388). Every record reaching the sort has the field set, so
the default is unreachable; `0` stands in for `datetime.max`. -/
def keyOf (t : TripRec) : Int := t.actual_departure_datetime.getD 0

/-- Insert a record after every record with key `≤` its own — the building
block of a stable ascending sort. -/
def insertByKey (x : TripRec) : List TripRec → List TripRec
  | [] => [x]
  | y :: ys => if keyOf y ≤ keyOf x then y :: insertByKey x ys else x :: y :: ys

/-- Model of `arrivals.sort(key=...)` (sensor.py line 388): Python's sort
is an ascending stable sort; this insertion sort is proven sorted and
stable below, which characterises that output uniquely. -/
def sortByKey (l : List TripRec) : List TripRec :=
  l.foldl (fun acc x => insertByKey x acc) []

/-- `_process_trips_with_delay` (sensor.py lines 327-397). Python mutates
the trip dicts in place while building `arrivals`; the first component is
the trips list as left after the call (records the loop `continue`d on are
untouched), the second the returned board. -/
def process_trips_with_delay (now : NowT) (trips : List TripRec) : List TripRec × Board :=
  let mutated := trips.map (fun t => (processTrip now t).getD t)
  let arrivals := sortByKey (trips.filterMap (processTrip now))
  (mutated, { arrivals := arrivals, next_departure := arrivals.head? })

/-! ## Realtime enricher -/

/-- `trip_update["stop_time_update"]["arrival"]` JSON object. -/
structure RtArrival where
  delay : Option Int
deriving DecidableEq

/-- `trip_update["stop_time_update"]` JSON object. -/
structure RtStopTimeUpdate where
  arrival : Option RtArrival
deriving DecidableEq

/-- `trip_update["vehicle"]` JSON object. -/
structure RtVehicle where
  license_plate : Option String
deriving DecidableEq

/-- A `trip_update` JSON object (sensor.py lines 298-310). -/
structure RtTripUpdate where
  delay : Option Int
  vehicle : Option RtVehicle
  stop_time_update : Option RtStopTimeUpdate
deriving DecidableEq

/-- An element of the response's `entity` list. -/
structure RtEntity where
  id : Option String
  trip_update : Option RtTripUpdate
deriving DecidableEq

/-- The `response` member of the realtime envelope; `entity` models
`result["response"].get("entity", [])` (an absent key is the empty list). -/
structure RtInner where
  entity : List RtEntity
deriving DecidableEq

/-- The realtime response envelope `{status, response: {entity: [...]}}`. -/
structure RtResponse where
  status : Option String
  response : Option RtInner
deriving DecidableEq

/-- The per-trip dict `{"license_plate": ..., "delay_seconds": ...}` stored
into the batch results (sensor.py lines 312-315). -/
structure RtInfo where
  license_plate : Option String
  delay_seconds : Option Int
deriving DecidableEq

/-- Extraction of license plate and delay from one `trip_update`
(sensor.py lines 300-310): plate only when `vehicle.license_plate` is
present; delay from the top-level `delay` key if present, else from
`stop_time_update.arrival.delay`. -/
def extractRtInfo (tu : RtTripUpdate) : RtInfo :=
  { license_plate :=
      match tu.vehicle with
      | some v => v.license_plate
      | none => none
    delay_seconds :=
      match tu.delay with
      | some d => some d
      | none =>
        match tu.stop_time_update with
        | some stu =>
          match stu.arrival with
          | some a => a.delay
          | none => none
        | none => none }

/-- Python dict assignment `results[trip_id] = v`: overwrite in place if the
key exists, else append. -/
def dictInsert (m : List (String × RtInfo)) (k : String) (v : RtInfo) :
    List (String × RtInfo) :=
  if m.any (fun p => p.1 == k) then m.map (fun p => if p.1 == k then (k, v) else p)
  else m ++ [(k, v)]

/-- Python dict lookup `m[k]` / `k in m` as an `Option`. -/
def dictLookup (m : List (String × RtInfo)) (k : String) : Option RtInfo :=
  match m.find? (fun p => p.1 == k) with
  | some p => some p.2
  | none => none

/-- Network-call outcome oracle: `ok` is HTTP 200 with the parsed JSON body,
`httpError s` a response with non-200 status `s`, `exn` a raised exception
(transport error, timeout, JSON decode failure, ...). -/
inductive FetchOutcome (α : Type) where
  | ok (body : α)
  | httpError (status : Nat)
  | exn
deriving DecidableEq

/-- `_fetch_realtime_trip_details_batch` (sensor.py lines 279-325). The
requested `trip_ids` are comma-joined into the query string only; the
response parse keeps every entity with a truthy `id` and a `trip_update`
key. Non-200 responses and exceptions yield the empty mapping. -/
def fetch_realtime_trip_details_batch (trip_ids : List String)
    (resp : FetchOutcome RtResponse) : List (String × RtInfo) :=
  let _params : String := String.intercalate "," trip_ids
  match resp with
  | .ok r =>
    if r.status = some "OK" ∧ r.response.isSome then
      ((r.response.getD { entity := [] }).entity).foldl
        (fun results e =>
          match e.id, e.trip_update with
          | some tid, some tu =>
            if tid ≠ "" then dictInsert results tid (extractRtInfo tu) else results
          | _, _ => results)
        []
    else []
  | .httpError _ => []
  | .exn => []

/-- `trip.update(realtime_details_batch[trip_id])` guarded by
`if trip_id and trip_id in realtime_details_batch` (sensor.py lines
236-239): sets the `license_plate` and `delay_seconds` keys. -/
def applyRt (batch : List (String × RtInfo)) (t : TripRec) : TripRec :=
  match t.trip_id with
  | some tid =>
    if tid ≠ "" then
      match dictLookup batch tid with
      | some info =>
        { t with license_plate := info.license_plate, delay_seconds := info.delay_seconds }
      | none => t
    else t
  | none => t

/-! ## Trip fetcher -/

/-- The `attributes` object of a scheduled-trips record. -/
structure RawAttr where
  arrival_time : Option String
  departure_time : Option String
  trip_headsign : Option String
  stop_headsign : Option String
  route_id : Option String
  trip_id : Option String
deriving DecidableEq

/-- An element of the scheduled-trips `data` array; `attributes` may be
absent (`trip.get("attributes", {})`). -/
structure RawTrip where
  attributes : Option RawAttr
deriving DecidableEq

/-- The scheduled-trips response envelope; `data` is `none` when the `data`
key is absent. -/
structure TripsResponse where
  data : Option (List RawTrip)
deriving DecidableEq

/-- The empty `attributes` dict. -/
def emptyAttr : RawAttr := ⟨none, none, none, none, none, none⟩

/-- `_extract_trips` (sensor.py lines 256-277): maps every record of the
`data` array to a trip dict, reading each attribute with `.get` (absent
becomes `none`); no record is dropped. -/
def extract_trips (r : TripsResponse) : List TripRec :=
  match r.data with
  | none => []
  | some ts =>
    ts.map (fun tr =>
      let a := tr.attributes.getD emptyAttr
      { arrival_time := a.arrival_time
        scheduled_departure_time := a.departure_time
        trip_headsign := a.trip_headsign
        stop_headsign := a.stop_headsign
        route_id := a.route_id
        trip_id := a.trip_id })

/-! ## Poll tick -/

/-- `_async_update_data` (sensor.py lines 190-254) as a function of the
quiet-window bounds, the current time of day, the previously held board
(`self.data`), the current datetime, and the two network-call oracles.
Returns the new board together with the number of network requests issued,
so the quiet path's absence of fetches is observable. -/
def async_update_data (qstart qend nowTod : Nat) (prev : Board) (now : NowT)
    (sched : FetchOutcome TripsResponse) (rt : FetchOutcome RtResponse) : Board × Nat :=
  if is_update_disabled qstart qend nowTod then (prev, 0)
  else
    match sched with
    | .ok body =>
      let all_trips := extract_trips body
      let trip_ids := all_trips.filterMap (fun t =>
        match t.trip_id with
        | some tid => if tid ≠ "" then some tid else none
        | none => none)
      if trip_ids.isEmpty then ((process_trips_with_delay now all_trips).2, 1)
      else
        let batch := fetch_realtime_trip_details_batch trip_ids rt
        let updated := all_trips.map (applyRt batch)
        ((process_trips_with_delay now updated).2, 2)
    | .httpError _ => (emptyBoard, 1)
    | .exn => (emptyBoard, 1)

/-! ## Quiet-window time-string parser -/

/-- Python `c in s` for a single character. -/
def containsChar (c : Char) (l : List Char) : Bool := l.any (· == c)

/-- Two-character substring search, for Python `"AM" in s`. -/
def hasPair (a b : Char) : List Char → Bool
  | x :: y :: rest => (x == a && y == b) || hasPair a b (y :: rest)
  | _ => false

/-- Python `str.upper()` (ASCII, which is all the source compares). -/
def upperAscii (l : List Char) : List Char := l.map Char.toUpper

/-- The seconds-truncation step of `_parse_time_string` (sensor.py lines
130-134): when the string has more than two colon-separated parts, keep
only the first two, rejoined with a colon. -/
def truncSeconds (l : List Char) : List Char :=
  if containsChar ':' l then
    let parts := splitChar ':' l
    if parts.length > 2 then joinWith ':' (parts.take 2) else l
  else l

/-- Model of `datetime.strptime(s, "%H:%M").time()` as seconds of day:
two colon-separated fields of one or two digits, hour `0..23`, minute
`0..59`, nothing else in the string. -/
def strptimeHM (l : List Char) : Option Nat :=
  match splitChar ':' l with
  | [h, m] =>
    if (h.length = 1 || h.length = 2) && (m.length = 1 || m.length = 2) then
      match digitsToNat? h, digitsToNat? m with
      | some hv, some mv =>
        if hv ≤ 23 && mv ≤ 59 then some (hv * 3600 + mv * 60) else none
      | _, _ => none
    else none
  | _ => none

/-- Model of `datetime.strptime(s, "%I:%M %p").time()` as seconds of day:
`H:MM` with hour `1..12`, one or more spaces, then `AM`/`PM`
case-insensitively; `12 AM` is hour 0 and `12 PM` hour 12. -/
def strptimeIMp (l : List Char) : Option Nat :=
  match splitChar ' ' l with
  | [] => none
  | hm :: rest =>
    if !rest.isEmpty && rest.dropLast.all List.isEmpty then
      let ap := upperAscii (rest.getLastD [])
      match splitChar ':' hm with
      | [h, m] =>
        if (h.length = 1 || h.length = 2) && (m.length = 1 || m.length = 2) then
          match digitsToNat? h, digitsToNat? m with
          | some hv, some mv =>
            if 1 ≤ hv && hv ≤ 12 && mv ≤ 59 then
              if ap == ['A', 'M'] then some (hv % 12 * 3600 + mv * 60)
              else if ap == ['P', 'M'] then some ((hv % 12 + 12) * 3600 + mv * 60)
              else none
            else none
          | _, _ => none
        else none
      | _ => none
    else none

/-- `_parse_time_string` (sensor.py lines 125-161) on the character list:
truncate seconds, try 24-hour `strptime`, then — only when the string has
a space and an `AM`/`PM` — 12-hour `strptime`, then 4-digit military time
(whose out-of-range values make the `time()` constructor raise). `none` is
the `ValueError` the method raises on every other input. -/
def parse_time_core (l0 : List Char) : Option Nat :=
  let l := truncSeconds l0
  match strptimeHM l with
  | some v => some v
  | none =>
    if containsChar ' ' l && (hasPair 'A' 'M' (upperAscii l) || hasPair 'P' 'M' (upperAscii l)) then
      strptimeIMp l
    else if l.all (·.isDigit) && l.length = 4 then
      match digitsToNat? (l.take 2), digitsToNat? (l.drop 2) with
      | some hv, some mv =>
        if hv ≤ 23 && mv ≤ 59 then some (hv * 3600 + mv * 60) else none
      | _, _ => none
    else none

/-- `_parse_time_string` on a `String`. -/
def parse_time_string (s : String) : Option Nat := parse_time_core s.data

/-- The quiet-window initialisation of `__init__` (sensor.py lines
114-123): parse the two configured bounds; if either raises, fall back to
parsing the built-in defaults (`DEFAULT_DISABLE_UPDATES_START/END`, whose
literal values are not part of the sources here, so they stay parameters);
`none` only if the defaults themselves fail to parse, which in the source
would crash setup. -/
def init_disable_times (dstart dend cstart cend : String) : Option (Nat × Nat) :=
  match parse_time_string cstart, parse_time_string cend with
  | some a, some b => some (a, b)
  | _, _ =>
    match parse_time_string dstart, parse_time_string dend with
    | some a, some b => some (a, b)
    | _, _ => none

/-- Valid hour/minute fields for a 24-hour spec shape: one or two digit
fields, hour `0..23`, minute `0..59`. -/
def validHM (h m : List Char) : Bool :=
  (h.length = 1 || h.length = 2) && (m.length = 1 || m.length = 2) &&
    (match digitsToNat? h, digitsToNat? m with
     | some hv, some mv => hv ≤ 23 && mv ≤ 59
     | _, _ => false)

/-- The spec's 24-hour shape: `HH:MM`, or `HH:MM:SS` with a valid seconds
field (to be truncated). -/
def shape24 (l : List Char) : Bool :=
  match splitChar ':' l with
  | [h, m] => validHM h m
  | [h, m, sec] =>
    validHM h m && sec.length = 2 &&
      (match digitsToNat? sec with
       | some sv => sv ≤ 59
       | none => false)
  | _ => false

/-- The spec's 12-hour shape: `HH:MM AM/PM` with hour `1..12`. -/
def shape12 (l : List Char) : Bool :=
  match splitChar ' ' l with
  | [hm, ap] =>
    (ap == ['A', 'M'] || ap == ['P', 'M']) &&
      (match splitChar ':' hm with
       | [h, m] =>
         (h.length = 1 || h.length = 2) && (m.length = 1 || m.length = 2) &&
           (match digitsToNat? h, digitsToNat? m with
            | some hv, some mv => 1 ≤ hv && hv ≤ 12 && mv ≤ 59
            | _, _ => false)
       | _ => false)
  | _ => false

/-- The spec's 4-digit military shape `HHMM` with valid hour and minute. -/
def shapeMil (l : List Char) : Bool :=
  l.length = 4 &&
    (match digitsToNat? (l.take 2), digitsToNat? (l.drop 2) with
     | some hv, some mv => hv ≤ 23 && mv ≤ 59
     | _, _ => false)

/-- The three input shapes the spec (sections 4.1, 7) says the parser
accepts, written from the spec's words with `HH`/`MM`/`SS` read as valid
field values: 24-hour `HH:MM` (or `HH:MM:SS` with seconds truncated),
12-hour `HH:MM AM/PM`, and 4-digit military `HHMM`. -/
def specTimeShape (s : String) : Bool :=
  shape24 s.data || shape12 s.data || shapeMil s.data

/-! ## Shared concrete inputs -/

/-- Convenience constructor: a freshly extracted trip record with the given
trip id and scheduled departure time and every other field absent. -/
def mkTrip (id dt : Option String) : TripRec :=
  { arrival_time := none, scheduled_departure_time := dt, trip_headsign := none,
    stop_headsign := none, route_id := none, trip_id := id }

/-- A nonempty previously-held board, used as last-known-good state in
concrete instances. -/
def prevBoardX : Board :=
  { arrivals := [mkTrip (some "X") (some "08:00:00")],
    next_departure := some (mkTrip (some "X") (some "08:00:00")) }

/-! ## C1: behaviour of the Active path on fetch failure -/

/-- C1, counterexample. The claim says a failed poll past the first returns
the previously held board unchanged. Here the previous board is nonempty,
the gate is open (start = end = 0 disables nothing), the scheduled-trips
fetch raises, and the update nevertheless returns the empty board, not the
previous one. -/
theorem C1_counterexample :
    (async_update_data 0 0 0 prevBoardX ⟨0, 0⟩ .exn .exn).1 = emptyBoard ∧
    prevBoardX ≠ emptyBoard := by
  decide

/-- C1, amended: on every poll tick in the Active path on which the fetch
fails (non-200 HTTP status or exception), the update returns the empty
board `{arrivals: [], next_departure: None}` after one network call,
regardless of any previously held board — a failed poll does blank
last-known-good data; the first poll is not special (its failure result
coincides with the initial empty board only because the initial data is
empty). -/
theorem C1_amended_failure_blanks (qs qe nowTod : Nat) (prev : Board) (now : NowT)
    (st : Nat) (rt : FetchOutcome RtResponse)
    (h : is_update_disabled qs qe nowTod = false) :
    async_update_data qs qe nowTod prev now (.httpError st) rt = (emptyBoard, 1) ∧
    async_update_data qs qe nowTod prev now .exn rt = (emptyBoard, 1) := by
  constructor <;> simp [async_update_data, h]

/-- C1, witness for the amended theorem at concrete inputs. -/
theorem C1_amended_witness :
    async_update_data 300 600 700 prevBoardX ⟨0, 700⟩ (.httpError 503) .exn = (emptyBoard, 1) :=
  (C1_amended_failure_blanks 300 600 700 prevBoardX ⟨0, 700⟩ 503 .exn (by decide)).1

/-! ## C2: the quiet-window predicate -/

/-- C2, counterexample. The claim asserts `now == start` is inside the
quiet window in both the wrapping and non-wrapping cases; with
`start = end = now = 0` (a non-wrapping window) the gate reports outside. -/
theorem C2_counterexample : is_update_disabled 0 0 0 = false := by decide

/-- C2, amended: the gate holds iff `start <= now < end` when
`start <= end` and iff `now >= start or now < end` when `start > end`
(exactly the spec's wrap-aware rule), and the boundary facts —
`now == start` inside, `now == end` outside — hold in both the wrapping
and non-wrapping cases provided `start ≠ end`; for the degenerate window
`start = end` the quiet window is empty and `now == start` is outside. -/
theorem C2_amended_gate (s e now : Nat) :
    (is_update_disabled s e now = true ↔ quietSpec s e now) ∧
    (s ≠ e → is_update_disabled s e s = true ∧ is_update_disabled s e e = false) := by
  simp only [is_update_disabled, quietSpec]
  constructor
  · split_ifs <;> simp <;> omega
  · intro hne
    split_ifs <;> simp <;> omega

/-- C2, witness for the amended theorem: a wrapping window evaluated at its
start (inside) and a check of the full rule at one point. -/
theorem C2_amended_witness :
    (is_update_disabled 79200 21600 79200 = true ↔ quietSpec 79200 21600 79200) ∧
    (79200 ≠ 21600 →
      is_update_disabled 79200 21600 79200 = true ∧
      is_update_disabled 79200 21600 21600 = false) :=
  C2_amended_gate 79200 21600 79200

/-! ## C3: the Quiet path is a frame -/

/-- C3: on every tick on which the quiet predicate holds, the update
returns the previously held board exactly and issues zero network calls to
either endpoint, whatever the oracles would have answered. -/
theorem C3_quiet_returns_prev (qs qe nowTod : Nat) (prev : Board) (now : NowT)
    (sched : FetchOutcome TripsResponse) (rt : FetchOutcome RtResponse)
    (h : is_update_disabled qs qe nowTod = true) :
    async_update_data qs qe nowTod prev now sched rt = (prev, 0) := by
  simp [async_update_data, h]

/-- C3, witness: a wrapping quiet window containing the current time; the
previous board (nonempty) comes back untouched with zero calls. -/
theorem C3_witness :
    async_update_data 79200 21600 3600 prevBoardX ⟨0, 3600⟩ (.ok { data := none }) .exn
      = (prevBoardX, 0) :=
  C3_quiet_returns_prev 79200 21600 3600 prevBoardX ⟨0, 3600⟩ (.ok { data := none }) .exn
    (by decide)

/-! ## C4: the exclusion rule and day rollover -/

/-- The record the source produces for raw time `"25:10:00"` fetched on
day 1 at 01:00: normalized to `01:10:00`, actual instant
`177000 = 2 * 86400 + 4200`, i.e. 01:10:00 on day 2 — the day after the
fetch. -/
def trip2510after : TripRec :=
  { mkTrip (some "X") (some "25:10:00") with
    scheduled_departure_time := some "01:10:00"
    actual_departure_time := some "01:10:00"
    actual_departure_datetime := some 177000 }

/-- C4: for a trip whose scheduled time parses as `(h, m, s)` with minute
and second in range, processing drops it iff its actual instant (resolved
scheduled instant plus applied delay) is strictly before now AND the raw
hour was below 24; and the concrete round trip: raw `"25:10:00"`, no
realtime entry, fetched on day 1 at 01:00 stays on the board with actual
time `"01:10:00"` on day 2. -/
theorem C4_exclusion_rule :
    (∀ (now : NowT) (t : TripRec) (raw : String) (h m s : Nat),
      t.scheduled_departure_time = some raw →
      parseHMS raw = some (h, m, s) → m < 60 → s < 60 →
      (processTrip now t = none ↔
        (schedInstant now h m s + delayOf t < now.instant ∧ h < 24))) ∧
    processTrip ⟨1, 3600⟩ (mkTrip (some "X") (some "25:10:00")) = some trip2510after ∧
    (177000 : Int) = (1 + 1) * 86400 + (1 * 3600 + 10 * 60) := by
  refine ⟨?_, by decide, by decide⟩
  intro now t raw h m s hsdt hp hm hs
  have hraw : raw ≠ "" := by
    rintro rfl
    rw [(by decide : parseHMS "" = none)] at hp
    exact Option.noConfusion hp
  simp only [processTrip, hsdt, hp, if_neg hraw]
  rw [if_neg (by omega : ¬(60 ≤ m ∨ 60 ≤ s))]
  simp only [schedInstant]
  split_ifs with hdrop
  · simp only [true_iff]
    exact ⟨hdrop.1, by omega⟩
  · simp only [false_iff]
    intro hcl
    exact hdrop ⟨hcl.1, by omega⟩

/-- C4, witness: the general exclusion rule applied to a concrete dropped
trip — scheduled `07:00:00`, delay `-120`, now 07:01:00 on day 0: the
actual instant 06:58:00 is past and the raw hour is below 24, so the trip
is dropped. -/
theorem C4_witness :
    processTrip ⟨0, 25260⟩
        { mkTrip (some "W") (some "07:00:00") with delay_seconds := some (-120) } = none := by
  have := (C4_exclusion_rule.1 ⟨0, 25260⟩
    { mkTrip (some "W") (some "07:00:00") with delay_seconds := some (-120) }
    "07:00:00" 7 0 0 (by decide) (by decide) (by decide) (by decide))
  exact this.mpr (by decide)

/-! ## C10: actual instant is exact datetime arithmetic -/

/-- C10: every retained trip's stored actual departure instant equals the
resolved scheduled instant plus the applied delay, as exact arithmetic on
instants (so a delay crossing midnight advances the date); it is never
re-derived from the raw time string. -/
theorem C10_actual_is_sched_plus_delay (now : NowT) (t t' : TripRec)
    (hp : processTrip now t = some t') :
    ∃ raw h m s, t.scheduled_departure_time = some raw ∧ parseHMS raw = some (h, m, s) ∧
      t'.actual_departure_datetime = some (schedInstant now h m s + delayOf t) := by
  simp only [processTrip] at hp
  split at hp
  · exact Option.noConfusion hp
  next raw hsdt =>
    split at hp
    · exact Option.noConfusion hp
    next hraw =>
      split at hp
      · exact Option.noConfusion hp
      next h m s hpp =>
        split at hp
        · exact Option.noConfusion hp
        next hrange =>
          split at hp
          · exact Option.noConfusion hp
          next hdrop =>
            refine ⟨raw, h, m, s, hsdt, hpp, ?_⟩
            cases hp
            simp [schedInstant]

/-! ## Sorting lemmas: the insertion sort is sorted and stable -/

/-- Membership in an insertion step. -/
theorem mem_insertByKey {a x : TripRec} {l : List TripRec} :
    a ∈ insertByKey x l ↔ a = x ∨ a ∈ l := by
  induction l with
  | nil => simp [insertByKey]
  | cons y ys ih =>
    simp only [insertByKey]
    split_ifs
    · simp only [List.mem_cons, ih]
      tauto
    · simp only [List.mem_cons]

/-- Inserting preserves sortedness by key. -/
theorem pairwise_insertByKey {x : TripRec} {l : List TripRec}
    (hl : l.Pairwise (fun a b => keyOf a ≤ keyOf b)) :
    (insertByKey x l).Pairwise (fun a b => keyOf a ≤ keyOf b) := by
  induction l with
  | nil => simp [insertByKey]
  | cons y ys ih =>
    rw [List.pairwise_cons] at hl
    simp only [insertByKey]
    split_ifs with hk
    · rw [List.pairwise_cons]
      refine ⟨?_, ih hl.2⟩
      intro a ha
      rcases mem_insertByKey.1 ha with rfl | ha
      · exact hk
      · exact hl.1 a ha
    · rw [List.pairwise_cons]
      refine ⟨?_, List.pairwise_cons.2 hl⟩
      intro a ha
      rcases List.mem_cons.1 ha with rfl | ha
      · omega
      · exact le_trans (by omega) (hl.1 a ha)

/-- Sortedness of the full fold from any sorted accumulator. -/
theorem pairwise_foldl_insert (l : List TripRec) (acc : List TripRec)
    (hacc : acc.Pairwise (fun a b => keyOf a ≤ keyOf b)) :
    (l.foldl (fun acc x => insertByKey x acc) acc).Pairwise
      (fun a b => keyOf a ≤ keyOf b) := by
  induction l generalizing acc with
  | nil => simpa
  | cons x xs ih => exact ih _ (pairwise_insertByKey hacc)

/-- The sort is sorted ascending by key. -/
theorem sortByKey_sorted (l : List TripRec) :
    (sortByKey l).Pairwise (fun a b => keyOf a ≤ keyOf b) :=
  pairwise_foldl_insert l [] (by simp)

/-- Inserting an element of another key leaves a key-class untouched. -/
theorem filter_insertByKey_ne {x : TripRec} {l : List TripRec} {k : Int}
    (hk : keyOf x ≠ k) :
    (insertByKey x l).filter (fun t => decide (keyOf t = k)) =
      l.filter (fun t => decide (keyOf t = k)) := by
  induction l with
  | nil => simp [insertByKey, hk]
  | cons y ys ih =>
    simp only [insertByKey]
    split_ifs with h
    · simp only [List.filter_cons, ih]
    · simp [List.filter_cons, hk]

/-- Inserting into a sorted list appends the new element at the end of its
own key-class. -/
theorem filter_insertByKey_eq {x : TripRec} {l : List TripRec}
    (hl : l.Pairwise (fun a b => keyOf a ≤ keyOf b)) :
    (insertByKey x l).filter (fun t => decide (keyOf t = keyOf x)) =
      l.filter (fun t => decide (keyOf t = keyOf x)) ++ [x] := by
  induction l with
  | nil => simp [insertByKey]
  | cons y ys ih =>
    rw [List.pairwise_cons] at hl
    simp only [insertByKey]
    split_ifs with h
    · simp only [List.filter_cons, ih hl.2]
      split_ifs <;> simp
    · have hall : ∀ a ∈ y :: ys, keyOf x < keyOf a := by
        intro a ha
        rcases List.mem_cons.1 ha with rfl | ha
        · omega
        · exact lt_of_lt_of_le (by omega) (hl.1 a ha)
      have hfil : (y :: ys).filter (fun t => decide (keyOf t = keyOf x)) = [] := by
        rw [List.filter_eq_nil_iff]
        intro a ha
        have := hall a ha
        simp only [decide_eq_true_eq]
        omega
      rw [List.filter_cons_of_pos (by simp), hfil]
      simp

/-- Key-class stability of the full fold from any sorted accumulator. -/
theorem filter_foldl_insert (l : List TripRec) (acc : List TripRec) (k : Int)
    (hacc : acc.Pairwise (fun a b => keyOf a ≤ keyOf b)) :
    (l.foldl (fun acc x => insertByKey x acc) acc).filter (fun t => decide (keyOf t = k)) =
      acc.filter (fun t => decide (keyOf t = k)) ++ l.filter (fun t => decide (keyOf t = k)) := by
  induction l generalizing acc with
  | nil => simp
  | cons x xs ih =>
    rw [List.foldl_cons, ih _ (pairwise_insertByKey hacc), List.filter_cons]
    by_cases hk : keyOf x = k
    · subst hk
      rw [filter_insertByKey_eq hacc]
      simp
    · rw [filter_insertByKey_ne hk]
      simp [hk]

/-- The sort preserves each key-class verbatim — exactly stability. -/
theorem sortByKey_stable (l : List TripRec) (k : Int) :
    (sortByKey l).filter (fun t => decide (keyOf t = k)) =
      l.filter (fun t => decide (keyOf t = k)) := by
  have := filter_foldl_insert l [] k (by simp)
  simpa [sortByKey] using this

/-! ## C5: board order and next departure -/

/-- C5: the board's arrivals are sorted ascending by actual departure
instant; each key-class (set of equal instants) appears in original fetch
order (stability, stated as filter-invariance per key); `next_departure`
is the head of the sorted list (absent iff empty); and the two concrete
scenarios: A at 08:00:00 / B at 07:30:00 with now 07:00:00 sort as [B, A]
with next B, and delay -3600 on A flips them to [A, B] (A's actual
07:00:00) with next A. -/
theorem C5_sorted_stable_next :
    (∀ (now : NowT) (trips : List TripRec),
      ((process_trips_with_delay now trips).2.arrivals.Pairwise
        (fun a b => keyOf a ≤ keyOf b)) ∧
      (∀ k : Int,
        (process_trips_with_delay now trips).2.arrivals.filter
            (fun t => decide (keyOf t = k)) =
          (trips.filterMap (processTrip now)).filter (fun t => decide (keyOf t = k))) ∧
      (process_trips_with_delay now trips).2.next_departure =
        (process_trips_with_delay now trips).2.arrivals.head?) ∧
    ((process_trips_with_delay ⟨0, 25200⟩
        [mkTrip (some "A") (some "08:00:00"),
          mkTrip (some "B") (some "07:30:00")]).2.arrivals.map
        (fun t => t.trip_id) = [some "B", some "A"] ∧
      ((process_trips_with_delay ⟨0, 25200⟩
        [mkTrip (some "A") (some "08:00:00"),
          mkTrip (some "B") (some "07:30:00")]).2.next_departure.map
        (fun t => t.trip_id) = some (some "B"))) ∧
    ((process_trips_with_delay ⟨0, 25200⟩
        ([mkTrip (some "A") (some "08:00:00"),
          mkTrip (some "B") (some "07:30:00")].map
            (applyRt [("A", { license_plate := none, delay_seconds := some (-3600) })]))).2.arrivals.map
        (fun t => (t.trip_id, t.actual_departure_time)) =
        [(some "A", some "07:00:00"), (some "B", some "07:30:00")] ∧
      ((process_trips_with_delay ⟨0, 25200⟩
        ([mkTrip (some "A") (some "08:00:00"),
          mkTrip (some "B") (some "07:30:00")].map
            (applyRt [("A", { license_plate := none, delay_seconds := some (-3600) })]))).2.next_departure.map
        (fun t => t.trip_id) = some (some "A"))) := by
  refine ⟨?_, by decide, by decide⟩
  intro now trips
  exact ⟨sortByKey_sorted _, fun k => sortByKey_stable _ k, rfl⟩

/-! ## Lemmas about the character-level string primitives -/

/-- A split always yields at least one segment. -/
theorem splitChar_ne_nil (c : Char) (l : List Char) : splitChar c l ≠ [] := by
  cases l with
  | nil => simp [splitChar]
  | cons x xs =>
    simp only [splitChar]
    split_ifs
    · simp
    · cases h : splitChar c xs <;> simp

/-- Joining undoes splitting. -/
theorem joinWith_splitChar (c : Char) (l : List Char) : joinWith c (splitChar c l) = l := by
  induction l with
  | nil => rfl
  | cons x xs ih =>
    simp only [splitChar]
    split_ifs with hx
    · subst hx
      cases hr : splitChar x xs with
      | nil => exact absurd hr (splitChar_ne_nil x xs)
      | cons a as =>
        rw [hr] at ih
        simpa [joinWith] using ih
    · cases hr : splitChar c xs with
      | nil => exact absurd hr (splitChar_ne_nil c xs)
      | cons a as =>
        rw [hr] at ih
        cases as with
        | nil =>
          simp only [joinWith] at ih ⊢
          rw [ih]
        | cons b bs =>
          simp only [joinWith, List.cons_append] at ih ⊢
          rw [ih]

/-- Segments of a split never contain the separator. -/
theorem not_mem_of_mem_splitChar (c : Char) (l : List Char) :
    ∀ p ∈ splitChar c l, c ∉ p := by
  induction l with
  | nil =>
    intro p hp
    simp only [splitChar, List.mem_singleton] at hp
    subst hp
    simp
  | cons x xs ih =>
    intro p hp
    simp only [splitChar] at hp
    split_ifs at hp with hx
    · rcases List.mem_cons.1 hp with rfl | hp
      · simp
      · exact ih p hp
    · cases hr : splitChar c xs with
      | nil => exact absurd hr (splitChar_ne_nil c xs)
      | cons a as =>
        rw [hr] at hp
        rcases List.mem_cons.1 hp with rfl | hp
        · intro hc
          rcases List.mem_cons.1 hc with rfl | hc
          · exact hx rfl
          · exact ih a (by rw [hr]; exact List.mem_cons_self a as) hc
        · exact ih p (by rw [hr]; exact List.mem_cons_of_mem a hp)

/-- Splitting at an explicit separator occurrence. -/
theorem splitChar_append (c : Char) (a b : List Char) (ha : c ∉ a) :
    splitChar c (a ++ c :: b) = a :: splitChar c b := by
  induction a with
  | nil => simp [splitChar]
  | cons x xs ih =>
    have hx : ¬(x = c) := fun h => ha (h ▸ List.mem_cons_self x xs)
    have ih2 := ih (fun h => ha (List.mem_cons_of_mem x h))
    simp only [List.cons_append, splitChar, if_neg hx, List.append_eq, ih2]

/-- A separator-free list splits into itself. -/
theorem splitChar_of_not_mem (c : Char) (l : List Char) (h : c ∉ l) :
    splitChar c l = [l] := by
  induction l with
  | nil => rfl
  | cons x xs ih =>
    have hx : ¬(x = c) := fun hh => h (hh ▸ List.mem_cons_self x xs)
    have ih2 := ih (fun hh => h (List.mem_cons_of_mem x hh))
    simp only [splitChar, if_neg hx, ih2]

/-- The ASCII digit character for `d < 10` is a digit with the expected
code point. -/
theorem digit_char_spec (d : Nat) (hd : d < 10) :
    (Char.ofNat (48 + d)).isDigit = true ∧ (Char.ofNat (48 + d)).toNat = 48 + d := by
  interval_cases d <;> exact ⟨by decide, by decide⟩

/-- Both characters of a two-digit pad are digits. -/
theorem pad2_all_digits (n : Nat) (hn : n < 100) : (pad2 n).all (·.isDigit) = true := by
  have h1 := digit_char_spec (n / 10) (by omega)
  have h2 := digit_char_spec (n % 10) (by omega)
  simp [pad2, h1.1, h2.1]

/-- A character that is not a digit does not occur in an all-digit list. -/
theorem not_mem_of_all_digits {c : Char} {l : List Char} (hc : c.isDigit = false)
    (hl : l.all (·.isDigit) = true) : c ∉ l := by
  intro hmem
  rw [List.all_eq_true] at hl
  have := hl c hmem
  rw [hc] at this
  exact Bool.noConfusion this

/-- Reading back a two-digit pad gives the padded value. -/
theorem digitsToNat_pad2 (n : Nat) (hn : n < 100) : digitsToNat? (pad2 n) = some n := by
  have h1 := digit_char_spec (n / 10) (by omega)
  have h2 := digit_char_spec (n % 10) (by omega)
  simp only [digitsToNat?]
  split_ifs with hco
  · simp only [pad2, List.foldl_cons, List.foldl_nil, h1.2, h2.2]
    congr 1
    omega
  · exact hco ⟨by simp [pad2], pad2_all_digits n hn⟩

/-- The formatted time string is never empty. -/
theorem fmtHMS_ne_empty (inst : Int) : fmtHMS inst ≠ "" := by
  intro h
  have hdata : (fmtHMS inst).data = [] := by rw [h]
  simp [fmtHMS, pad2] at hdata

/-- Parsing a formatted instant recovers its time-of-day fields. -/
theorem parseHMS_fmtHMS (day : Int) (h m s : Nat) (hh : h < 24) (hm : m < 60) (hs : s < 60) :
    parseHMS (fmtHMS (day * 86400 + ((h * 3600 + m * 60 + s : Nat) : Int))) = some (h, m, s) := by
  have htod : ((day * 86400 + ((h * 3600 + m * 60 + s : Nat) : Int)) % 86400).toNat
      = h * 3600 + m * 60 + s := by
    omega
  have e1 : (h * 3600 + m * 60 + s) / 3600 = h := by omega
  have e2 : (h * 3600 + m * 60 + s) % 3600 / 60 = m := by omega
  have e3 : (h * 3600 + m * 60 + s) % 60 = s := by omega
  simp only [fmtHMS, htod, e1, e2, e3, parseHMS, List.append_assoc, List.cons_append]
  rw [splitChar_append ':' _ _ (not_mem_of_all_digits (by decide) (pad2_all_digits h (by omega)))]
  rw [splitChar_append ':' _ _ (not_mem_of_all_digits (by decide) (pad2_all_digits m (by omega)))]
  rw [splitChar_of_not_mem ':' _ (not_mem_of_all_digits (by decide) (pad2_all_digits s (by omega)))]
  simp only [List.map_cons, List.map_nil,
    digitsToNat_pad2 h (by omega), digitsToNat_pad2 m (by omega), digitsToNat_pad2 s (by omega)]

/-! ## C9: re-running reconciliation -/

/-- Whether a trip's raw scheduled hour is below 24 (trivially true when
the time is absent or unparseable, since such trips are never mutated). -/
def rawHourLt24 (t : TripRec) : Bool :=
  match t.scheduled_departure_time with
  | none => true
  | some raw =>
    match parseHMS raw with
    | none => true
    | some (h, _, _) => decide (h < 24)

/-- A trip retained by processing whose raw hour was below 24 is a fixed
point of processing: the in-place normalization rewrote its time string to
the same time of day on the same date, so a second run reproduces it. -/
theorem processTrip_idem (now : NowT) (t t' : TripRec)
    (h24 : rawHourLt24 t = true) (hp : processTrip now t = some t') :
    processTrip now t' = some t' := by
  simp only [processTrip] at hp
  split at hp
  · exact Option.noConfusion hp
  next raw hsdt =>
    split at hp
    · exact Option.noConfusion hp
    next hraw =>
      split at hp
      · exact Option.noConfusion hp
      next h m s hpp =>
        split at hp
        · exact Option.noConfusion hp
        next hrange =>
          split at hp
          · exact Option.noConfusion hp
          next hdrop =>
            rw [Option.some_inj] at hp
            subst hp
            have hlt : h < 24 := by
              simp only [rawHourLt24, hsdt, hpp, decide_eq_true_eq] at h24
              exact h24
            have hd0 : h / 24 = 0 := by omega
            have hm60 : m < 60 := by omega
            have hs60 : s < 60 := by omega
            have hSimpl : now.day * 86400 + ((h / 24 : Nat) : Int) * 86400
                + ((h % 24 * 3600 + m * 60 + s : Nat) : Int)
                = now.day * 86400 + ((h * 3600 + m * 60 + s : Nat) : Int) := by
              rw [hd0, Nat.mod_eq_of_lt hlt]
              push_cast
              ring
            have hparse : parseHMS (fmtHMS (now.day * 86400 + ((h / 24 : Nat) : Int) * 86400
                + ((h % 24 * 3600 + m * 60 + s : Nat) : Int))) = some (h, m, s) := by
              rw [hSimpl]
              exact parseHMS_fmtHMS now.day h m s hlt hm60 hs60
            have hnotpast : ¬(now.day * 86400 + ((h / 24 : Nat) : Int) * 86400
                + ((h % 24 * 3600 + m * 60 + s : Nat) : Int) + delayOf t < now.instant) := by
              intro hlt2
              exact hdrop ⟨hlt2, hd0⟩
            simp only [processTrip, hparse, if_neg (fmtHMS_ne_empty _), if_neg hrange]
            rw [if_neg (fun hc => hnotpast hc.1)]
            rfl

/-- Pointwise-equal optional maps filter-map identically. -/
theorem filterMap_congr_mem {α β : Type} (f g : α → Option β) (l : List α)
    (h : ∀ a ∈ l, f a = g a) : l.filterMap f = l.filterMap g := by
  induction l with
  | nil => rfl
  | cons x xs ih =>
    rw [List.filterMap_cons, List.filterMap_cons, h x (List.mem_cons_self x xs),
      ih (fun a ha => h a (List.mem_cons_of_mem x ha))]

/-- C9, counterexample. In the source the trip dicts are mutated in place
(`trip["scheduled_departure_time"]` is overwritten with the normalized
time), so calling reconciliation a second time with the same trips list,
realtime data and now — as the claim quantifies — sees the mutated
records: the `25:10:00` trip fetched at 02:00 is kept by the first call
(board of one arrival) but dropped by the second (empty board). -/
theorem C9_counterexample :
    (process_trips_with_delay ⟨0, 7200⟩
        ((process_trips_with_delay ⟨0, 7200⟩ [mkTrip (some "X") (some "25:10:00")]).1)).2 ≠
      (process_trips_with_delay ⟨0, 7200⟩ [mkTrip (some "X") (some "25:10:00")]).2 := by
  decide

/-- C9, amended: reconciliation is a deterministic function of the trips,
realtime data and now, but it mutates its trip records in place; a second
call on the records as left by the first call yields the identical result
(same mutated records, same board) provided every trip's raw hour was
below 24 — with a raw hour ≥ 24 the in-place normalization loses the day
rollover and the second call can drop or re-date the trip. -/
theorem C9_amended_rerun (now : NowT) (trips : List TripRec)
    (hall : ∀ t ∈ trips, rawHourLt24 t = true) :
    process_trips_with_delay now (process_trips_with_delay now trips).1 =
      process_trips_with_delay now trips := by
  have hpt : ∀ t ∈ trips, processTrip now ((processTrip now t).getD t) = processTrip now t := by
    intro t ht
    cases hp : processTrip now t with
    | none => simp [hp]
    | some t' =>
      have hi := processTrip_idem now t t' (hall t ht) hp
      simp [hp, hi]
  have hmap : (trips.map (fun t => (processTrip now t).getD t)).map
      (fun t => (processTrip now t).getD t)
      = trips.map (fun t => (processTrip now t).getD t) := by
    rw [List.map_map]
    apply List.map_congr_left
    intro a ha
    show (processTrip now ((processTrip now a).getD a)).getD ((processTrip now a).getD a)
      = (processTrip now a).getD a
    rw [hpt a ha]
    cases hp : processTrip now a <;> simp [hp]
  have hfm : (trips.map (fun t => (processTrip now t).getD t)).filterMap (processTrip now)
      = trips.filterMap (processTrip now) := by
    rw [List.filterMap_map]
    exact filterMap_congr_mem _ _ trips (fun a ha => by
      simpa [Function.comp] using hpt a ha)
  simp only [process_trips_with_delay]
  rw [hmap, hfm]

/-- C9, witness for the amended theorem: re-running on an already
processed batch (all raw hours below 24) reproduces the result. -/
theorem C9_amended_witness :
    process_trips_with_delay ⟨0, 25200⟩
        (process_trips_with_delay ⟨0, 25200⟩
          [mkTrip (some "A") (some "08:00:00"), mkTrip (some "B") (some "07:30:00")]).1 =
      process_trips_with_delay ⟨0, 25200⟩
        [mkTrip (some "A") (some "08:00:00"), mkTrip (some "B") (some "07:30:00")] :=
  C9_amended_rerun ⟨0, 25200⟩
    [mkTrip (some "A") (some "08:00:00"), mkTrip (some "B") (some "07:30:00")] (by decide)

/-! ## Lemmas for the time-string parser -/

theorem containsChar_iff (c : Char) (l : List Char) : containsChar c l = true ↔ c ∈ l := by
  simp only [containsChar, List.any_eq_true, beq_iff_eq]
  constructor
  · rintro ⟨x, hx, rfl⟩
    exact hx
  · intro h
    exact ⟨c, h, rfl⟩

theorem truncSeconds_of_le_two (l : List Char) (h : (splitChar ':' l).length ≤ 2) :
    truncSeconds l = l := by
  simp only [truncSeconds]
  split_ifs with h1 h2
  · omega
  · rfl
  · rfl

theorem truncSeconds_three (l a b sec : List Char) (hl : splitChar ':' l = [a, b, sec]) :
    truncSeconds l = a ++ ':' :: b := by
  have hjoin := joinWith_splitChar ':' l
  rw [hl] at hjoin
  have hmem : ':' ∈ l := by
    rw [← hjoin]
    simp [joinWith]
  simp only [truncSeconds]
  rw [if_pos ((containsChar_iff ':' l).2 hmem), hl]
  rw [if_pos (by simp)]
  simp [joinWith]

theorem digitsToNat_all_digits {l : List Char} {n : Nat} (h : digitsToNat? l = some n) :
    l.all (·.isDigit) = true := by
  simp only [digitsToNat?] at h
  split_ifs at h with hc
  exact hc.2

theorem strptimeHM_some (l h m : List Char) (hv mv : Nat)
    (hl : splitChar ':' l = [h, m])
    (hhl : h.length = 1 ∨ h.length = 2) (hml : m.length = 1 ∨ m.length = 2)
    (hh : digitsToNat? h = some hv) (hm2 : digitsToNat? m = some mv)
    (hhv : hv ≤ 23) (hmv : mv ≤ 59) :
    strptimeHM l = some (hv * 3600 + mv * 60) := by
  simp only [strptimeHM, hl, hh, hm2]
  rw [if_pos (by simp only [Bool.and_eq_true, Bool.or_eq_true, decide_eq_true_eq]; exact ⟨hhl, hml⟩)]
  rw [if_pos (by simp only [Bool.and_eq_true, decide_eq_true_eq]; exact ⟨hhv, hmv⟩)]

theorem shape24_parse_isSome (l : List Char) (h24 : shape24 l = true) :
    (parse_time_core l).isSome = true := by
  rw [shape24] at h24
  split at h24
  next h m heq =>
    rw [validHM] at h24
    simp only [Bool.and_eq_true, Bool.or_eq_true, decide_eq_true_eq] at h24
    obtain ⟨⟨hhl, hml⟩, hmatch⟩ := h24
    split at hmatch
    next hv mv hdh hdm =>
      simp only [Bool.and_eq_true, decide_eq_true_eq] at hmatch
      have htr := truncSeconds_of_le_two l (by rw [heq]; simp)
      have hsm := strptimeHM_some l h m hv mv heq hhl hml hdh hdm hmatch.1 hmatch.2
      simp [parse_time_core, htr, hsm]
    next => exact Bool.noConfusion hmatch
  next h m sec heq =>
    simp only [Bool.and_eq_true, decide_eq_true_eq] at h24
    obtain ⟨⟨h24, hsl⟩, hsec⟩ := h24
    rw [validHM] at h24
    simp only [Bool.and_eq_true, Bool.or_eq_true, decide_eq_true_eq] at h24
    obtain ⟨⟨hhl, hml⟩, hmatch⟩ := h24
    split at hmatch
    next hv mv hdh hdm =>
      simp only [Bool.and_eq_true, decide_eq_true_eq] at hmatch
      have hnch : ':' ∉ h := not_mem_of_all_digits (by decide) (digitsToNat_all_digits hdh)
      have hncm : ':' ∉ m := not_mem_of_all_digits (by decide) (digitsToNat_all_digits hdm)
      have htr := truncSeconds_three l h m sec heq
      have hsplit2 : splitChar ':' (h ++ ':' :: m) = [h, m] := by
        rw [splitChar_append ':' h m hnch, splitChar_of_not_mem ':' m hncm]
      have hsm := strptimeHM_some (h ++ ':' :: m) h m hv mv hsplit2 hhl hml hdh hdm
        hmatch.1 hmatch.2
      simp [parse_time_core, htr, hsm]
    next => exact Bool.noConfusion hmatch
  next => exact Bool.noConfusion h24

theorem upperAscii_append (a b : List Char) :
    upperAscii (a ++ b) = upperAscii a ++ upperAscii b := by
  simp [upperAscii]

theorem hasPair_append_pair (a b : Char) (l1 : List Char) :
    hasPair a b (l1 ++ [a, b]) = true := by
  induction l1 with
  | nil => simp [hasPair]
  | cons x xs ih =>
    cases xs with
    | nil => simp [hasPair]
    | cons y ys =>
      simp only [List.cons_append] at ih ⊢
      rw [show hasPair a b (x :: y :: (ys ++ [a, b]))
          = ((x == a && y == b) || hasPair a b (y :: (ys ++ [a, b]))) from rfl]
      rw [ih]
      simp

theorem shapeMil_parse_isSome (l : List Char) (hmil : shapeMil l = true) :
    (parse_time_core l).isSome = true := by
  rw [shapeMil] at hmil
  simp only [Bool.and_eq_true, decide_eq_true_eq] at hmil
  obtain ⟨hlen, hmatch⟩ := hmil
  split at hmatch
  next hv mv hdh hdm =>
    simp only [Bool.and_eq_true, decide_eq_true_eq] at hmatch
    have halld : l.all (·.isDigit) = true := by
      have h1 := digitsToNat_all_digits hdh
      have h2 := digitsToNat_all_digits hdm
      rw [← List.take_append_drop 2 l, List.all_append, h1, h2]
      rfl
    have hnc : ':' ∉ l := not_mem_of_all_digits (by decide) halld
    have hns : ' ' ∉ l := not_mem_of_all_digits (by decide) halld
    have hsp : splitChar ':' l = [l] := splitChar_of_not_mem ':' l hnc
    have htr : truncSeconds l = l := truncSeconds_of_le_two l (by rw [hsp]; simp)
    have hHMnone : strptimeHM l = none := by
      simp only [strptimeHM, hsp]
    have hgf : containsChar ' ' l = false := by
      cases hcc : containsChar ' ' l
      · rfl
      · exact absurd ((containsChar_iff ' ' l).1 hcc) hns
    simp only [parse_time_core, htr, hHMnone, hgf, Bool.false_and, Bool.false_eq_true,
      if_false, hdh, hdm]
    rw [if_pos (by simp [halld, hlen])]
    rw [if_pos (by simp only [Bool.and_eq_true, decide_eq_true_eq]; exact ⟨hmatch.1, hmatch.2⟩)]
    rfl
  next => exact Bool.noConfusion hmatch

theorem shape12_parse_isSome (l : List Char) (h12 : shape12 l = true) :
    (parse_time_core l).isSome = true := by
  rw [shape12] at h12
  split at h12
  next hm ap heq =>
    simp only [Bool.and_eq_true, Bool.or_eq_true, beq_iff_eq] at h12
    obtain ⟨hap, hinner⟩ := h12
    split at hinner
    next h m heq2 =>
      simp only [Bool.and_eq_true, Bool.or_eq_true, decide_eq_true_eq] at hinner
      obtain ⟨⟨hhl, hml⟩, hmatch⟩ := hinner
      split at hmatch
      next hv mv hdh hdm =>
        simp only [Bool.and_eq_true, decide_eq_true_eq] at hmatch
        obtain ⟨⟨hv1, hv12⟩, hmv⟩ := hmatch
        have hl : l = hm ++ ' ' :: ap := by
          have hj := joinWith_splitChar ' ' l
          rw [heq] at hj
          simpa [joinWith] using hj.symm
        have hhm : hm = h ++ ':' :: m := by
          have hj := joinWith_splitChar ':' hm
          rw [heq2] at hj
          simpa [joinWith] using hj.symm
        subst hl
        subst hhm
        have hnch : ':' ∉ h := not_mem_of_all_digits (by decide) (digitsToNat_all_digits hdh)
        have hncm : ':' ∉ m := not_mem_of_all_digits (by decide) (digitsToNat_all_digits hdm)
        have hnsh : ' ' ∉ h := not_mem_of_all_digits (by decide) (digitsToNat_all_digits hdh)
        have hnsm : ' ' ∉ m := not_mem_of_all_digits (by decide) (digitsToNat_all_digits hdm)
        have hapf : ':' ∉ ap ∧ ' ' ∉ ap ∧ upperAscii ap = ap ∧ ap.length = 2 := by
          rcases hap with rfl | rfl
          · exact ⟨by decide, by decide, by decide, by decide⟩
          · exact ⟨by decide, by decide, by decide, by decide⟩
        have hcolon_tail : ':' ∉ m ++ ' ' :: ap := by
          intro hmem
          rcases List.mem_append.1 hmem with h1 | h1
          · exact hncm h1
          · rcases List.mem_cons.1 h1 with h2 | h2
            · exact absurd h2 (by decide)
            · exact hapf.1 h2
        have hLassoc : (h ++ ':' :: m) ++ ' ' :: ap = h ++ ':' :: (m ++ ' ' :: ap) := by
          simp
        have hsplitcL : splitChar ':' ((h ++ ':' :: m) ++ ' ' :: ap)
            = [h, m ++ ' ' :: ap] := by
          rw [hLassoc, splitChar_append ':' h _ hnch,
            splitChar_of_not_mem ':' _ hcolon_tail]
        have htr : truncSeconds ((h ++ ':' :: m) ++ ' ' :: ap) = (h ++ ':' :: m) ++ ' ' :: ap :=
          truncSeconds_of_le_two _ (by rw [hsplitcL]; simp)
        have hHMnone : strptimeHM ((h ++ ':' :: m) ++ ' ' :: ap) = none := by
          simp only [strptimeHM, hsplitcL]
          split_ifs with hc
          · exfalso
            simp only [Bool.and_eq_true, Bool.or_eq_true, decide_eq_true_eq,
              List.length_append, List.length_cons] at hc
            have := hapf.2.2.2
            omega
          · rfl
        have hmemsp : ' ' ∈ (h ++ ':' :: m) ++ ' ' :: ap :=
          List.mem_append.2 (Or.inr (List.mem_cons_self _ _))
        have hup1 : upperAscii ((h ++ ':' :: m) ++ ' ' :: ap)
            = upperAscii (h ++ ':' :: m) ++ ' ' :: ap := by
          rw [upperAscii_append]
          congr 1
          show List.map Char.toUpper (' ' :: ap) = ' ' :: ap
          rw [List.map_cons]
          rw [show Char.toUpper ' ' = ' ' from by decide]
          exact congrArg (fun x => ' ' :: x) hapf.2.2.1
        have hpair : (hasPair 'A' 'M' (upperAscii ((h ++ ':' :: m) ++ ' ' :: ap))
            || hasPair 'P' 'M' (upperAscii ((h ++ ':' :: m) ++ ' ' :: ap))) = true := by
          rw [hup1]
          rcases hap with rfl | rfl
          · rw [Bool.or_eq_true]
            left
            rw [show upperAscii (h ++ ':' :: m) ++ ' ' :: (['A', 'M'] : List Char)
                = (upperAscii (h ++ ':' :: m) ++ [' ']) ++ ['A', 'M'] from by simp]
            exact hasPair_append_pair 'A' 'M' _
          · rw [Bool.or_eq_true]
            right
            rw [show upperAscii (h ++ ':' :: m) ++ ' ' :: (['P', 'M'] : List Char)
                = (upperAscii (h ++ ':' :: m) ++ [' ']) ++ ['P', 'M'] from by simp]
            exact hasPair_append_pair 'P' 'M' _
        have hguard : (containsChar ' ' ((h ++ ':' :: m) ++ ' ' :: ap)
            && (hasPair 'A' 'M' (upperAscii ((h ++ ':' :: m) ++ ' ' :: ap))
              || hasPair 'P' 'M' (upperAscii ((h ++ ':' :: m) ++ ' ' :: ap)))) = true := by
          rw [(containsChar_iff _ _).2 hmemsp, hpair]
          rfl
        have hsplitc2 : splitChar ':' (h ++ ':' :: m) = [h, m] := by
          rw [splitChar_append ':' h m hnch, splitChar_of_not_mem ':' m hncm]
        have hIMp : (strptimeIMp ((h ++ ':' :: m) ++ ' ' :: ap)).isSome = true := by
          simp only [strptimeIMp, heq, hsplitc2]
          rw [if_pos (by simp)]
          rw [show List.getLastD [ap] [] = ap from rfl]
          rw [hapf.2.2.1]
          rw [if_pos (by
            simp only [Bool.and_eq_true, Bool.or_eq_true, decide_eq_true_eq]
            exact ⟨hhl, hml⟩)]
          simp only [hdh, hdm]
          rw [if_pos (by
            simp only [Bool.and_eq_true, decide_eq_true_eq]
            exact ⟨⟨hv1, hv12⟩, hmv⟩)]
          rcases hap with rfl | rfl
          · rfl
          · rfl
        simp only [parse_time_core, htr, hHMnone]
        rw [if_pos hguard]
        exact hIMp
      next => exact Bool.noConfusion hmatch
    next => exact Bool.noConfusion hinner
  next => exact Bool.noConfusion h12

theorem specShape_parse_isSome (s : String) (hs : specTimeShape s = true) :
    (parse_time_string s).isSome = true := by
  rw [parse_time_string]
  cases h24 : shape24 s.data with
  | true => exact shape24_parse_isSome s.data h24
  | false =>
    cases h12 : shape12 s.data with
    | true => exact shape12_parse_isSome s.data h12
    | false =>
      have hmil : shapeMil s.data = true := by
        rw [specTimeShape, h24, h12] at hs
        simpa using hs
      exact shapeMil_parse_isSome s.data hmil

/-! ## C8: the quiet-window time parser and its fallback -/

/-- C8, counterexample. The claim says the parser succeeds exactly on the
`HH:MM[:SS]`, `HH:MM AM/PM` and `HHMM` shapes and raises on any other
shape. The input `"1:2:3:4"` is none of those shapes, yet the parser
accepts it (as 01:02): the seconds-truncation step keeps the first two
colon-separated fields of any input with more than two fields, without
validating the rest. -/
theorem C8_counterexample :
    parse_time_string "1:2:3:4" = some 3720 ∧ specTimeShape "1:2:3:4" = false := by
  decide

/-- C8, amended: the parser accepts every string of the three spec shapes
(24-hour `HH:MM` / `HH:MM:SS` with seconds truncated, 12-hour
`HH:MM AM/PM`, 4-digit military `HHMM`, fields in valid ranges), but not
only those — any input whose first two colon-separated fields form a
valid 24-hour time also parses, whatever follows the second colon. When a
configured quiet-window bound fails to parse, both bounds fall back to the
built-in defaults (their literal values live in a constants module not
among these sources, so they are parameters here) instead of failing
setup; when both configured bounds parse, they are used. -/
theorem C8_amended_time_shapes (s ds de cs ce : String) (a b : Nat)
    (hs : specTimeShape s = true)
    (hda : parse_time_string ds = some a) (hdb : parse_time_string de = some b) :
    (parse_time_string s).isSome = true ∧
    ((parse_time_string cs = none ∨ parse_time_string ce = none) →
      init_disable_times ds de cs ce = some (a, b)) ∧
    (∀ x y, parse_time_string cs = some x → parse_time_string ce = some y →
      init_disable_times ds de cs ce = some (x, y)) := by
  refine ⟨specShape_parse_isSome s hs, ?_, ?_⟩
  · intro hfail
    rcases hfail with hf | hf
    · cases hce : parse_time_string ce <;> simp [init_disable_times, hf, hce, hda, hdb]
    · cases hcs : parse_time_string cs <;> simp [init_disable_times, hf, hcs, hda, hdb]
  · intro x y hx hy
    simp [init_disable_times, hx, hy]

/-- C8, witness for the amended theorem: a valid shape parses; an invalid
configured start makes the coordinator fall back to the default window
23:00-05:00. -/
theorem C8_amended_witness :
    (parse_time_string "06:30").isSome = true ∧
    ((parse_time_string "nonsense" = none ∨ parse_time_string "07:00" = none) →
      init_disable_times "23:00" "05:00" "nonsense" "07:00" = some (82800, 18000)) ∧
    (∀ x y, parse_time_string "nonsense" = some x → parse_time_string "07:00" = some y →
      init_disable_times "23:00" "05:00" "nonsense" "07:00" = some (x, y)) :=
  C8_amended_time_shapes "06:30" "23:00" "05:00" "nonsense" "07:00" 82800 18000
    (by decide) (by decide) (by decide)

/-! ## C6: the batch realtime merge -/

/-- The foldl of the batch parse ignores every entity lacking a truthy id
or a `trip_update`. -/
theorem foldl_rt_skip (entities : List RtEntity) (acc : List (String × RtInfo))
    (h : ∀ e ∈ entities, e.id = none ∨ e.id = some "" ∨ e.trip_update = none) :
    entities.foldl
      (fun results e =>
        match e.id, e.trip_update with
        | some tid, some tu =>
          if tid ≠ "" then dictInsert results tid (extractRtInfo tu) else results
        | _, _ => results)
      acc = acc := by
  induction entities generalizing acc with
  | nil => rfl
  | cons e es ih =>
    rw [List.foldl_cons]
    have he := h e (List.mem_cons_self e es)
    have hstep :
        (match e.id, e.trip_update with
          | some tid, some tu =>
            if tid ≠ "" then dictInsert acc tid (extractRtInfo tu) else acc
          | _, _ => acc) = acc := by
      rcases he with h1 | h1 | h1
      · rw [h1]
      · rw [h1]
        cases htu : e.trip_update <;> simp
      · rw [h1]
        cases hid : e.id <;> simp
    rw [hstep]
    exact ih acc (fun x hx => h x (List.mem_cons_of_mem e hx))

/-- C6, counterexample. The claim says an entity contributes only if its
identifier matches a requested trip id. Requesting only `T1`, a response
whose single entity has id `T2` still lands in the returned mapping: the
parse never consults the requested ids. -/
theorem C6_counterexample :
    fetch_realtime_trip_details_batch ["T1"]
        (.ok ⟨some "OK", some ⟨[⟨some "T2", some ⟨some 120, none, none⟩⟩]⟩⟩)
      = [("T2", ⟨none, some 120⟩)] := by
  decide

/-- C6, amended: the requested trip ids are only comma-joined into the
query string and never filter the parsed mapping (the result is the same
whatever ids are requested); an entity contributes only if it has a
non-empty id and a `trip_update`; delay is read from the top-level delay
field or, failing that, from the nested arrival-delay field (first present
wins); and a trip whose id is absent from the mapping is left unchanged by
the merge — extracted trips then carry no delay and no plate, so they are
reconciled with delay 0 and no vehicle plate, as the T1/T2/T3 scenario
shows. -/
theorem C6_amended_batch_merge :
    (∀ (ids1 ids2 : List String) (resp : FetchOutcome RtResponse),
      fetch_realtime_trip_details_batch ids1 resp =
        fetch_realtime_trip_details_batch ids2 resp) ∧
    (∀ (ids : List String) (status : Option String) (entities : List RtEntity),
      (∀ e ∈ entities, e.id = none ∨ e.id = some "" ∨ e.trip_update = none) →
      fetch_realtime_trip_details_batch ids (.ok ⟨status, some ⟨entities⟩⟩) = []) ∧
    (∀ (tu : RtTripUpdate) (d : Int), tu.delay = some d →
      (extractRtInfo tu).delay_seconds = some d) ∧
    (∀ tu : RtTripUpdate, tu.delay = none →
      (extractRtInfo tu).delay_seconds =
        tu.stop_time_update.bind (fun stu => stu.arrival.bind (fun a => a.delay))) ∧
    (∀ (batch : List (String × RtInfo)) (t : TripRec) (tid : String),
      t.trip_id = some tid → dictLookup batch tid = none → applyRt batch t = t) ∧
    ([mkTrip (some "T1") (some "08:00:00"), mkTrip (some "T2") (some "08:10:00"),
        mkTrip (some "T3") (some "08:20:00")].map
        (applyRt [("T2", ⟨some "ABC123", some 300⟩)]) =
      [mkTrip (some "T1") (some "08:00:00"),
        { mkTrip (some "T2") (some "08:10:00") with
          license_plate := some "ABC123", delay_seconds := some 300 },
        mkTrip (some "T3") (some "08:20:00")]) := by
  refine ⟨fun ids1 ids2 resp => rfl, ?_, ?_, ?_, ?_, by decide⟩
  · intro ids status entities h
    simp only [fetch_realtime_trip_details_batch]
    split_ifs with hok
    · exact foldl_rt_skip entities [] h
    · rfl
  · intro tu d hd
    simp [extractRtInfo, hd]
  · intro tu hd
    simp only [extractRtInfo, hd]
    cases tu.stop_time_update with
    | none => rfl
    | some stu =>
      obtain ⟨arr⟩ := stu
      cases arr <;> rfl
  · intro batch t tid htid hlook
    simp [applyRt, htid, hlook]

/-- C6, witness for the amended theorem: the unmatched-trip clause applied
to trip `T9` against a mapping that only knows `T2`. -/
theorem C6_amended_witness :
    applyRt [("T2", ⟨some "ABC123", some 300⟩)] (mkTrip (some "T9") (some "09:00:00")) =
      mkTrip (some "T9") (some "09:00:00") :=
  C6_amended_batch_merge.2.2.2.2.1 [("T2", ⟨some "ABC123", some 300⟩)]
    (mkTrip (some "T9") (some "09:00:00")) "T9" (by decide) (by decide)

/-! ## C7: sparse records -/

/-- C7, counterexample. The claim says a record lacking either a trip id or
a departure time is dropped from the extracted sequence. A record with a
departure time but no trip id is extracted (not dropped), survives
processing, and reaches the board through a full active tick. -/
theorem C7_counterexample :
    extract_trips ⟨some [⟨some ⟨none, some "08:00:00", none, none, none, none⟩⟩]⟩ =
      [mkTrip none (some "08:00:00")] ∧
    (process_trips_with_delay ⟨0, 25200⟩ [mkTrip none (some "08:00:00")]).2.arrivals.length = 1 ∧
    (async_update_data 300 600 700 emptyBoard ⟨0, 25200⟩
        (.ok ⟨some [⟨some ⟨none, some "08:00:00", none, none, none, none⟩⟩]⟩)
        .exn).1.arrivals.length = 1 := by
  decide

/-- C7, amended: extraction drops nothing (one trip per `data` record);
a record lacking a departure time (key absent or empty string) is silently
dropped during processing, leaving the remaining records' board unchanged;
and processing never consults the trip id, so a record lacking only the
trip id is not dropped. -/
theorem C7_amended_sparse_records :
    (∀ r : TripsResponse, (extract_trips r).length = (r.data.getD []).length) ∧
    (∀ (now : NowT) (t : TripRec) (ts1 ts2 : List TripRec),
      (t.scheduled_departure_time = none ∨ t.scheduled_departure_time = some "") →
      (process_trips_with_delay now (ts1 ++ t :: ts2)).2 =
        (process_trips_with_delay now (ts1 ++ ts2)).2) ∧
    (∀ (now : NowT) (t : TripRec) (v : Option String),
      processTrip now { t with trip_id := v } =
        (processTrip now t).map (fun r => { r with trip_id := v })) := by
  refine ⟨?_, ?_, ?_⟩
  · intro r
    cases r with
    | mk d =>
      cases d with
      | none => rfl
      | some ts => simp [extract_trips]
  · intro now t ts1 ts2 hsdt
    have hnone : processTrip now t = none := by
      rcases hsdt with h1 | h1 <;> simp [processTrip, h1]
    simp [process_trips_with_delay, List.filterMap_append, List.filterMap_cons, hnone]
  · intro now t v
    obtain ⟨a1, sdt, th, sh, rid, tid, lp, ds, adt, add⟩ := t
    cases sdt with
    | none => rfl
    | some raw =>
      cases hp : parseHMS raw with
      | none => simp [processTrip, hp]
      | some hms =>
        obtain ⟨h, m, s⟩ := hms
        by_cases hraw : raw = ""
        · simp [processTrip, hraw]
        · simp only [processTrip, hp, if_neg hraw, delayOf]
          split_ifs with hr hd
          · rfl
          · rfl
          · rfl

/-- C7, witness for the amended theorem: dropping a time-less record from
the middle of a batch leaves the others' board intact. -/
theorem C7_amended_witness :
    (process_trips_with_delay ⟨0, 25200⟩
        [mkTrip (some "A") (some "08:00:00"), mkTrip (some "N") none,
          mkTrip (some "B") (some "07:30:00")]).2 =
      (process_trips_with_delay ⟨0, 25200⟩
        [mkTrip (some "A") (some "08:00:00"), mkTrip (some "B") (some "07:30:00")]).2 :=
  C7_amended_sparse_records.2.1 ⟨0, 25200⟩ (mkTrip (some "N") none)
    [mkTrip (some "A") (some "08:00:00")] [mkTrip (some "B") (some "07:30:00")]
    (Or.inl rfl)

/-- C10, witness: a trip at `23:59:00` with delay `+120` seconds lands at
instant `86460 = 1 * 86400 + 60`, i.e. 00:01:00 on the next day. -/
theorem C10_witness :
    ∃ raw h m s,
      (mkTrip (some "Z") (some "23:59:00")).scheduled_departure_time = some raw ∧
      parseHMS raw = some (h, m, s) ∧
      ({ mkTrip (some "Z") (some "23:59:00") with
          scheduled_departure_time := some "23:59:00"
          delay_seconds := some 120
          actual_departure_time := some "00:01:00"
          actual_departure_datetime := some 86460 } : TripRec).actual_departure_datetime
        = some (schedInstant ⟨0, 86000⟩ h m s +
            delayOf { mkTrip (some "Z") (some "23:59:00") with delay_seconds := some 120 }) :=
  C10_actual_is_sched_plus_delay ⟨0, 86000⟩
    { mkTrip (some "Z") (some "23:59:00") with delay_seconds := some 120 } _ (by decide)

end AT
